import Mathlib

/-!
Verification of the PRS Co-Pilot orchestration server (server.js, v1.5.0,
together with the earlier revision of the same file).  Text is modelled as
`List Char`; the tolerant regex-based tag extraction, the response-shape
extractor, the LLM wrapper with its chat fallback, the retry wrapper and the
orchestrated `/generate` pipeline are embedded as executable functions.  The
upstream LLM is modelled as an oracle assigning a reply to each call index.
-/

namespace PRS

/-- Text, modelled as a list of characters. -/
abbrev Txt := List Char

/-! ## Case-insensitive literal matching

The server matches tags with case-insensitive regexes over literal tag names
(`/<SurgicalBoard_Verify>(.*?)<\/SurgicalBoard_Verify>/i` etc.).  We embed the
literal-pattern fragment of that regex dialect. -/

/-- `isPrefixCI pat s` : `pat` matches at the start of `s`, comparing
characters case-insensitively (ASCII folding, as in `/…/i` over the
tag literals used by the server). -/
def isPrefixCI : Txt → Txt → Bool
  | [], _ => true
  | _ :: _, [] => false
  | p :: ps, c :: cs => (p.toLower == c.toLower) && isPrefixCI ps cs

/-- Split `s` at the first (leftmost) case-insensitive occurrence of the
literal `pat`: returns `(before, matched, after)` where `matched` is the
original-case text that matched `pat`.  `none` when `pat` does not occur. -/
def splitFirstCI (pat : Txt) : Txt → Option (Txt × Txt × Txt)
  | [] => if pat.isEmpty then some ([], [], []) else none
  | c :: cs =>
    if isPrefixCI pat (c :: cs) then
      some ([], (c :: cs).take pat.length, (c :: cs).drop pat.length)
    else
      match splitFirstCI pat cs with
      | some (pre, m, suf) => some (c :: pre, m, suf)
      | none => none

/-- `containsCI s pat` : `pat` occurs somewhere in `s`, case-insensitively.
This is `/pat/i.test(s)` for a literal `pat`. -/
def containsCI (s pat : Txt) : Bool := (splitFirstCI pat s).isSome

/-- JavaScript line terminators: `.` in a (non-dotAll) JS regex matches any
character except these. -/
def isJsNL (c : Char) : Bool :=
  c = '\n' || c = '\r' || c = ' ' || c = ' '

/-- Whitespace recognised by JavaScript `String.prototype.trim`. -/
def isJsWS (c : Char) : Bool :=
  c = ' ' || c = '\t' || c = '\n' || c = '\r' || c = '\x0b' || c = '\x0c'
  || c = ' ' || c = ' '
  || (8192 ≤ c.toNat && c.toNat ≤ 8202)
  || c = ' ' || c = ' ' || c = ' ' || c = ' '
  || c = '　' || c = '﻿'

/-- `String.prototype.trim`: drop leading and trailing whitespace. -/
def jsTrim (s : Txt) : Txt :=
  ((s.dropWhile isJsWS).reverse.dropWhile isJsWS).reverse

/-- Capture group of `/opT([\s\S]*?)clT/i` for literal tags `opT`, `clT`:
content between the first occurrence of the opening literal and the nearest
following occurrence of the closing literal; newlines allowed in between. -/
def tagCaptureAll (opT clT : Txt) (s : Txt) : Option Txt :=
  match splitFirstCI opT s with
  | none => none
  | some (_, _, afterOpen) =>
    match splitFirstCI clT afterOpen with
    | none => none
    | some (content, _, _) => some content

/-- Capture group of `/opT(.*?)clT/i` for literal tags: like
`tagCaptureAll` but the captured content may not contain a line terminator
(`.` does not match newlines); as in the regex engine, when the closing tag
is not reachable on the same line the scan backtracks to the next occurrence
of the opening literal. -/
def tagCaptureLine (opT clT : Txt) : Txt → Option Txt
  | [] => none
  | c :: cs =>
    (if isPrefixCI opT (c :: cs) then
      let afterOpen := (c :: cs).drop opT.length
      let line := afterOpen.takeWhile (fun ch => !isJsNL ch)
      match splitFirstCI clT line with
      | some (content, _, _) => some content
      | none => none
     else none).orElse (fun _ => tagCaptureLine opT clT cs)

/-- Whole match (`m[0]`) of `/opT[\s\S]*?clT/i` for literal tags: the text
from the first occurrence of the opening literal to the end of the nearest
following occurrence of the closing literal, in original case. -/
def tagMatchFull (opT clT : Txt) (s : Txt) : Option Txt :=
  match splitFirstCI opT s with
  | none => none
  | some (_, mo, afterOpen) =>
    match splitFirstCI clT afterOpen with
    | none => none
    | some (content, mc, _) => some (mo ++ content ++ mc)

/-! ## Tag extraction as used by the server -/

/-- The opening literal of the payload regex: `<SurgicalPlan` (note: no
closing `>`, exactly as in the source pattern `/<SurgicalPlan[\s\S]*?<\/SurgicalPlan>/i`). -/
def openPlanS : Txt := "<SurgicalPlan".toList

def closePlanS : Txt := "</SurgicalPlan>".toList

def openVerifyS : Txt := "<SurgicalBoard_Verify>".toList

def closeVerifyS : Txt := "</SurgicalBoard_Verify>".toList

def openFeedbackS : Txt := "<Feedback_Comment>".toList

def closeFeedbackS : Txt := "</Feedback_Comment>".toList

def openMgrOverS : Txt := "<Manager_Override>".toList

def closeMgrOverS : Txt := "</Manager_Override>".toList

def openMgrNoteS : Txt := "<Manager_Note>".toList

def closeMgrNoteS : Txt := "</Manager_Note>".toList

/-- `content.match(/<SurgicalPlan[\s\S]*?<\/SurgicalPlan>/i)`, whole match. -/
def matchSurgicalPlan (t : Txt) : Option Txt := tagMatchFull openPlanS closePlanS t

/-- `m ? m[0] : content` — the fail-soft payload rule used for the initial
plan, for every revision in `/generate`, and by the `/plan` endpoint. -/
def planPayload (t : Txt) : Txt := (matchSurgicalPlan t).getD t

/-- The `/plan` endpoint body: `res.json({ xml: m ? m[0] : content })`. -/
def planEndpoint (content : Txt) : Txt :=
  match matchSurgicalPlan content with
  | some m => m
  | none => content

/-- Capture of `/<SurgicalBoard_Verify>(.*?)<\/SurgicalBoard_Verify>/i`. -/
def verifyExtract (t : Txt) : Option Txt := tagCaptureLine openVerifyS closeVerifyS t

/-- Capture of `/<Feedback_Comment>([\s\S]*?)<\/Feedback_Comment>/i`. -/
def feedbackExtract (t : Txt) : Option Txt := tagCaptureAll openFeedbackS closeFeedbackS t

/-- Capture of `/<Manager_Override>(.*?)<\/Manager_Override>/i`. -/
def mOverrideExtract (t : Txt) : Option Txt := tagCaptureLine openMgrOverS closeMgrOverS t

/-- Capture of `/<Manager_Note>([\s\S]*?)<\/Manager_Note>/i`. -/
def mNoteExtract (t : Txt) : Option Txt := tagCaptureAll openMgrNoteS closeMgrNoteS t

def acceptS : Txt := "accept".toList

def rejectS : Txt := "reject".toList

/-! ## The `/review` endpoint and the per-round review logic of `/generate` -/

/-- The synthesized comment used in `/generate` when the reviewer output is
not structured (missing either tag, or an empty comment). -/
def noStructuredMsgS : Txt :=
  "Reviewer returned no structured feedback. Treat this as a formatting/format-only issue (minor).".toList

/-- The `/review` endpoint verdict+comment derivation:
`v = (content.match(verify-regex) || [,'reject'])[1]`,
`c = (content.match(feedback-regex) || [,''])[1].trim()`,
`verdict = /accept/i.test(v || '') ? 'accept' : 'reject'`. -/
def reviewEndpoint (content : Txt) : Txt × Txt :=
  let v := (verifyExtract content).getD rejectS
  let c := jsTrim ((feedbackExtract content).getD [])
  (if containsCI v acceptS then acceptS else rejectS, c)

/-- One review round of `/generate` (server.js v1.5.0 loop body): extract the
verdict token and feedback comment; when the reviewer did not follow the
format (missing tag or empty comment) force `v := 'reject'` and synthesize a
comment; classify the verdict by `/accept/i.test(v)`.  Returns
`(verdict, comment)`. -/
def roundReview (t : Txt) : Txt × Txt :=
  let vM := verifyExtract t
  let cM := feedbackExtract t
  let v0 := jsTrim (vM.getD [])
  let c0 := jsTrim (cM.getD [])
  let noStructured := vM.isNone || cM.isNone || c0.isEmpty
  let v := if noStructured then rejectS else v0
  let c := if noStructured then (if c0.isEmpty then noStructuredMsgS else c0) else c0
  (if containsCI v acceptS then acceptS else rejectS, c)

/-! ## The orchestrated `/generate` pipeline

Each role invocation is `await runLLMRetry(() => runLLM(...))`; we model the
success path of every such invocation through an oracle `o : Nat → Txt`
giving the text produced by the `k`-th LLM call of the run, and record the
role of every call in a trace. -/

/-- The four LLM roles invoked by the pipeline. -/
inductive Role where
  | author
  | reviewer
  | manager
  | synthesizer
deriving DecidableEq

/-- Per-run call state: next oracle index and the trace of roles invoked. -/
structure RunSt where
  idx : Nat
  trace : List Role
deriving DecidableEq

/-- Make one (successful) LLM role invocation against the oracle. -/
def callO (o : Nat → Txt) (r : Role) (st : RunSt) : Txt × RunSt :=
  (o st.idx, ⟨st.idx + 1, st.trace ++ [r]⟩)

/-- Result of the review loop. -/
structure LoopOut where
  verdict : Txt
  comment : Txt
  planXml : Txt
  raw : Txt
  st : RunSt
deriving DecidableEq

/-- The review loop body of `/generate`:
`for (let round = 0; round < 3; round++) { review; if accept break; revise }`.
Note that on rejection the loop revises the plan *even in the last round*,
before control reaches the override stage. -/
def reviewRounds (o : Nat → Txt) : Nat → Txt → Txt → Txt → Txt → RunSt → LoopOut
  | 0, planXml, verdict, comment, raw, st => ⟨verdict, comment, planXml, raw, st⟩
  | n + 1, planXml, _, _, _, st =>
    let rc := callO o .reviewer st
    let raw := jsTrim rc.1
    let vc := roundReview rc.1
    if vc.1 = acceptS then ⟨vc.1, vc.2, planXml, raw, rc.2⟩
    else
      let av := callO o .author rc.2
      reviewRounds o n (planPayload av.1) vc.1 vc.2 raw av.2

/-- Initial authoring plus the three-round review loop of `/generate`
(verdict and comment start as `'reject'` and `''`). -/
def loopOut (o : Nat → Txt) : LoopOut :=
  let a0 := callO o .author ⟨0, []⟩
  reviewRounds o 3 (planPayload a0.1) rejectS [] [] a0.2

/-- The superficial-concern heuristic of the override stage:
`/format|tag|layout|xml|structure|style|no structured feedback/i.test(comment || '') || !comment`. -/
def looksMinor (c : Txt) : Bool :=
  containsCI c ("format".toList) || containsCI c ("tag".toList)
  || containsCI c ("layout".toList) || containsCI c ("xml".toList)
  || containsCI c ("structure".toList) || containsCI c ("style".toList)
  || containsCI c ("no structured feedback".toList) || c.isEmpty

/-- `source` value `'review'`. -/
def reviewSrcS : Txt := "review".toList

/-- `source` value `'manager_override'`. -/
def mgrSrcS : Txt := "manager_override".toList

/-- The synthesized note of the override fast path. -/
def fastNoteS : Txt :=
  "Override: reviewer output missing/format-only; treating as minor.".toList

/-- `(mgrText.match(override-regex) || [,'reject'])[1].trim()`. -/
def overTok (t : Txt) : Txt := jsTrim ((mOverrideExtract t).getD rejectS)

/-- `(mgrText.match(note-regex) || [,''])[1].trim()`. -/
def mgrNoteTok (t : Txt) : Txt := jsTrim ((mNoteExtract t).getD [])

/-- Result of the override stage. -/
structure OverrideOut where
  verdict : Txt
  source : Txt
  mnote : Txt
  st : RunSt
deriving DecidableEq

/-- Stage 4 of `/generate`: manager override when still rejected.  The fast
path accepts without a model call when the comment looks minor; otherwise the
Manager role is invoked once and its override decision applied
(`if (/accept/i.test(over)) { verdict = 'accept'; source = 'manager_override'; }`). -/
def overridePhase (o : Nat → Txt) (L : LoopOut) : OverrideOut :=
  if L.verdict = acceptS then ⟨L.verdict, reviewSrcS, [], L.st⟩
  else if looksMinor L.comment then ⟨acceptS, mgrSrcS, fastNoteS, L.st⟩
  else
    let mc := callO o .manager L.st
    let over := overTok mc.1
    let note := mgrNoteTok mc.1
    if containsCI over acceptS then ⟨acceptS, mgrSrcS, note, mc.2⟩
    else ⟨L.verdict, reviewSrcS, note, mc.2⟩

/-- The `reason` field:
`source === 'manager_override' ? (comment ? comment + nl + nl + prefix + note : prefix + note) : (comment || '')`. -/
def genReason (source comment mnote : Txt) : Txt :=
  if source = mgrSrcS then
    (if comment.isEmpty then "Manager override: ".toList ++ mnote
     else comment ++ "\n\nManager override: ".toList ++ mnote)
  else comment

/-- The `/generate` response (plus the trace of role invocations performed).
`markdown` is present exactly when the final verdict is accept. -/
structure GenOut where
  verdict : Txt
  source : Txt
  reason : Txt
  comment : Txt
  mnote : Txt
  xml : Txt
  raw : Txt
  markdown : Option Txt
  trace : List Role
deriving DecidableEq

/-- The full `/generate` pipeline (server.js v1.5.0 lines 382-476), success
path of every retry-wrapped LLM call, modelled against the oracle `o`. -/
def generate (o : Nat → Txt) : GenOut :=
  let L := loopOut o
  let ov := overridePhase o L
  let reason := genReason ov.source L.comment ov.mnote
  if ov.verdict = acceptS then
    let sy := callO o .synthesizer ov.st
    ⟨ov.verdict, ov.source, reason, L.comment, ov.mnote, L.planXml, L.raw,
      some sy.1, sy.2.trace⟩
  else
    ⟨ov.verdict, ov.source, reason, L.comment, ov.mnote, L.planXml, L.raw,
      none, ov.st.trace⟩

/-! ## Helper lemmas about the matching primitives -/

theorem isPrefixCI_length {p s : Txt} (h : isPrefixCI p s = true) :
    p.length ≤ s.length := by
  induction p generalizing s with
  | nil => simp
  | cons c cs ih =>
    cases s with
    | nil => simp [isPrefixCI] at h
    | cons d ds =>
      simp only [isPrefixCI, Bool.and_eq_true] at h
      simpa using ih h.2

theorem isPrefixCI_append {p b : Txt} (v : Txt) (h : isPrefixCI p b = true) :
    isPrefixCI p (b ++ v) = true := by
  induction p generalizing b with
  | nil => simp [isPrefixCI]
  | cons c cs ih =>
    cases b with
    | nil => simp [isPrefixCI] at h
    | cons d ds =>
      simp only [isPrefixCI, Bool.and_eq_true] at h ⊢
      exact ⟨h.1, ih h.2⟩

theorem splitFirstCI_isSome_iff {pat s : Txt} :
    (splitFirstCI pat s).isSome = true ↔
      ∃ a b, s = a ++ b ∧ isPrefixCI pat b = true := by
  constructor
  · intro h
    induction s with
    | nil =>
      simp only [splitFirstCI] at h
      by_cases hp : pat.isEmpty
      · exact ⟨[], [], rfl, by cases pat <;> simp_all [isPrefixCI]⟩
      · simp [hp] at h
    | cons c cs ih =>
      simp only [splitFirstCI] at h
      by_cases hc : isPrefixCI pat (c :: cs)
      · exact ⟨[], c :: cs, rfl, hc⟩
      · simp only [hc, if_false] at h
        rcases hs : splitFirstCI pat cs with _ | ⟨pre, m, suf⟩
        · rw [hs] at h; simp at h
        · rcases ih (by rw [hs]; rfl) with ⟨a, b, hab, hpre⟩
          exact ⟨c :: a, b, by simp [hab], hpre⟩
  · rintro ⟨a, b, rfl, hpre⟩
    induction a with
    | nil =>
      cases b with
      | nil =>
        have : pat = [] := by cases pat with
          | nil => rfl
          | cons p ps => simp [isPrefixCI] at hpre
        simp [splitFirstCI, this]
      | cons d ds => simp [splitFirstCI, hpre]
    | cons c cs ih =>
      simp only [List.cons_append, splitFirstCI]
      by_cases hc : isPrefixCI pat (cs ++ b)
      · rcases ho : splitFirstCI pat (cs ++ b) with _ | x
        · rw [ho] at ih; simp at ih
        · by_cases hcc : isPrefixCI pat (c :: (cs ++ b)) <;> simp [hcc, ho]
      · rcases ho : splitFirstCI pat (cs ++ b) with _ | x
        · rw [ho] at ih; simp at ih
        · by_cases hcc : isPrefixCI pat (c :: (cs ++ b)) <;> simp [hcc, ho]

theorem containsCI_of_decomp (a b : Txt) {s pat : Txt} (hs : s = a ++ b)
    (hpre : isPrefixCI pat b = true) : containsCI s pat = true := by
  unfold containsCI
  exact splitFirstCI_isSome_iff.mpr ⟨a, b, hs, hpre⟩

/-- Substring occurrence is monotone under embedding into a larger text. -/
theorem containsCI_infix {m pat : Txt} (u v : Txt)
    (h : containsCI m pat = true) : containsCI (u ++ m ++ v) pat = true := by
  unfold containsCI at h
  rcases splitFirstCI_isSome_iff.mp h with ⟨a, b, rfl, hpre⟩
  exact containsCI_of_decomp (u ++ a) (b ++ v) (by simp) (isPrefixCI_append v hpre)

theorem dropWhile_exists_front (p : Char → Bool) (s : Txt) :
    ∃ u, u ++ s.dropWhile p = s := by
  induction s with
  | nil => exact ⟨[], rfl⟩
  | cons c cs ih =>
    by_cases hc : p c
    · rcases ih with ⟨u, hu⟩
      exact ⟨c :: u, by simp [List.dropWhile, hc, hu]⟩
    · exact ⟨[], by simp [List.dropWhile, hc]⟩

/-- `jsTrim s` occurs inside `s`: `s = u ++ jsTrim s ++ v`. -/
theorem jsTrim_decomp (s : Txt) : ∃ u v, s = u ++ jsTrim s ++ v := by
  rcases dropWhile_exists_front isJsWS s with ⟨u, hu⟩
  rcases dropWhile_exists_front isJsWS (s.dropWhile isJsWS).reverse with ⟨w, hw⟩
  refine ⟨u, w.reverse, ?_⟩
  have h2 : jsTrim s ++ w.reverse = s.dropWhile isJsWS := by
    have h3 := congrArg List.reverse hw
    simp only [List.reverse_append, List.reverse_reverse] at h3
    simpa [jsTrim] using h3
  rw [List.append_assoc, h2, hu]

theorem containsCI_jsTrim {s pat : Txt} (h : containsCI (jsTrim s) pat = true) :
    containsCI s pat = true := by
  rcases jsTrim_decomp s with ⟨u, v, hs⟩
  rw [hs]
  exact containsCI_infix u v h

theorem dropWhile_idem (p : Char → Bool) (s : Txt) :
    (s.dropWhile p).dropWhile p = s.dropWhile p := by
  induction s with
  | nil => rfl
  | cons c cs ih =>
    by_cases hc : p c <;> simp [List.dropWhile, hc, ih]

theorem dropWhile_of_prefix_nodrop (p : Char → Bool) {s x w : Txt}
    (hx : x ++ w = s) (hs : s.dropWhile p = s) : x.dropWhile p = x := by
  cases x with
  | nil => rfl
  | cons c cs =>
    have hc : p c = false := by
      by_contra hcc
      have hpc : p c = true := by revert hcc; cases p c <;> simp
      have h1 : s.dropWhile p = (cs ++ w).dropWhile p := by
        rw [← hx]; simp [List.dropWhile, hpc]
      have hlen : (s.dropWhile p).length ≤ (cs ++ w).length := by
        rcases dropWhile_exists_front p (cs ++ w) with ⟨u, hu⟩
        rw [h1]
        calc ((cs ++ w).dropWhile p).length
            ≤ u.length + ((cs ++ w).dropWhile p).length := by omega
          _ = (cs ++ w).length := by rw [← List.length_append, hu]
      rw [hs, ← hx] at hlen
      simp at hlen
    simp [List.dropWhile, hc]

/-- Right-strip: what `jsTrim` does at the tail end. -/
def rstripWS (s : Txt) : Txt := (s.reverse.dropWhile isJsWS).reverse

theorem rstripWS_nodrop_pres {s : Txt} (hs : s.dropWhile isJsWS = s) :
    (rstripWS s).dropWhile isJsWS = rstripWS s := by
  rcases dropWhile_exists_front isJsWS s.reverse with ⟨u, hu⟩
  have hx : rstripWS s ++ u.reverse = s := by
    have := congrArg List.reverse hu
    simpa [rstripWS] using this
  exact dropWhile_of_prefix_nodrop isJsWS hx hs

theorem jsTrim_eq_rstrip_drop (s : Txt) :
    jsTrim s = rstripWS (s.dropWhile isJsWS) := rfl

theorem rstripWS_idem (s : Txt) : rstripWS (rstripWS s) = rstripWS s := by
  unfold rstripWS
  rw [List.reverse_reverse, dropWhile_idem]

theorem jsTrim_idem (s : Txt) : jsTrim (jsTrim s) = jsTrim s := by
  rw [jsTrim_eq_rstrip_drop s, jsTrim_eq_rstrip_drop]
  rw [rstripWS_nodrop_pres (dropWhile_idem isJsWS s), rstripWS_idem]

theorem splitFirstCI_match_length {pat s : Txt} {a m b : Txt}
    (h : splitFirstCI pat s = some (a, m, b)) : m.length = pat.length := by
  induction s generalizing a with
  | nil =>
    simp only [splitFirstCI] at h
    by_cases hp : pat.isEmpty
    · rw [if_pos hp] at h
      simp only [Option.some.injEq, Prod.mk.injEq] at h
      obtain ⟨h1, h2, h3⟩ := h
      rw [← h2]
      cases pat with
      | nil => rfl
      | cons p ps => simp at hp
    · rw [if_neg hp] at h
      exact absurd h (by simp)
  | cons c cs ih =>
    simp only [splitFirstCI] at h
    by_cases hc : isPrefixCI pat (c :: cs) = true
    · rw [if_pos hc] at h
      simp only [Option.some.injEq, Prod.mk.injEq] at h
      obtain ⟨h1, h2, h3⟩ := h
      rw [← h2, List.length_take]
      have := isPrefixCI_length hc
      simp only [List.length_cons] at this ⊢
      omega
    · rw [if_neg hc] at h
      rcases hs : splitFirstCI pat cs with _ | ⟨pre, mm, suf⟩
      · rw [hs] at h
        exact absurd h (by simp)
      · rw [hs] at h
        simp only [Option.some.injEq, Prod.mk.injEq] at h
        obtain ⟨h1, h2, h3⟩ := h
        rw [h2, h3] at hs
        exact ih hs

theorem tagMatchFull_nonempty {opT clT s m : Txt} (hop : opT ≠ [])
    (h : tagMatchFull opT clT s = some m) : m ≠ [] := by
  unfold tagMatchFull at h
  rcases h1 : splitFirstCI opT s with _ | ⟨pre, mo, suf⟩
  · rw [h1] at h
    exact absurd h (by simp)
  · rw [h1] at h
    dsimp only at h
    rcases h2 : splitFirstCI clT suf with _ | ⟨content, mc, rest⟩
    · rw [h2] at h
      exact absurd h (by simp)
    · rw [h2] at h
      dsimp only at h
      have hm := Option.some.inj h
      have hlen := splitFirstCI_match_length h1
      intro hmnil
      rw [← hm] at hmnil
      have hmo : mo = [] := by
        cases mo with
        | nil => rfl
        | cons x xs => simp at hmnil
      rw [hmo] at hlen
      simp only [List.length_nil] at hlen
      exact hop (List.length_eq_zero.mp hlen.symm)

theorem ite_accept_or_reject (b : Bool) :
    (if b then acceptS else rejectS) = acceptS ∨
    (if b then acceptS else rejectS) = rejectS := by
  cases b <;> simp

/-! ## Claim C4: fail-closed verdict -/

/-- C4: for every reviewer text that lacks a `<SurgicalBoard_Verify>` tag, or
whose verdict token does not classify as accept (no case-insensitive
`accept` substring), the derived Verdict is `reject`, both in the `/review`
endpoint and in each review round of `/generate`; the Verdict is always
`accept` or `reject`, never anything else. -/
theorem verdict_fail_closed :
    (∀ t : Txt, verifyExtract t = none →
      (reviewEndpoint t).1 = rejectS ∧ (roundReview t).1 = rejectS) ∧
    (∀ t tok : Txt, verifyExtract t = some tok → containsCI tok acceptS = false →
      (reviewEndpoint t).1 = rejectS ∧ (roundReview t).1 = rejectS) ∧
    (∀ t : Txt, (reviewEndpoint t).1 = acceptS ∨ (reviewEndpoint t).1 = rejectS) ∧
    (∀ t : Txt, (roundReview t).1 = acceptS ∨ (roundReview t).1 = rejectS) := by
  have hrej : containsCI rejectS acceptS = false := by decide
  refine ⟨?_, ?_, ?_, ?_⟩
  · intro t h
    constructor
    · simp [reviewEndpoint, h, hrej]
    · simp [roundReview, h, hrej]
  · intro t tok h hcont
    have htrim : containsCI (jsTrim tok) acceptS = false := by
      by_contra hx
      have hx' : containsCI (jsTrim tok) acceptS = true := by
        revert hx; cases containsCI (jsTrim tok) acceptS <;> simp
      rw [containsCI_jsTrim hx'] at hcont
      exact absurd hcont (by simp)
    constructor
    · simp [reviewEndpoint, h, hcont]
    · by_cases hns : ((feedbackExtract t).isNone
          || (jsTrim ((feedbackExtract t).getD [])).isEmpty) = true
      · simp [roundReview, h, hns, hrej]
      · simp only [Bool.not_eq_true] at hns
        simp [roundReview, h, hns, htrim]
  · intro t
    unfold reviewEndpoint
    by_cases h : containsCI ((verifyExtract t).getD rejectS) acceptS = true
    · left; simp [h]
    · right; simp [h]
  · intro t
    exact ite_accept_or_reject
      (containsCI
        (if ((verifyExtract t).isNone || (feedbackExtract t).isNone
              || (jsTrim ((feedbackExtract t).getD [])).isEmpty) = true
         then rejectS else jsTrim ((verifyExtract t).getD [])) acceptS)

def noTagT : Txt := "hello there".toList

def unrecT : Txt :=
  "<SurgicalBoard_Verify>maybe</SurgicalBoard_Verify><Feedback_Comment>x</Feedback_Comment>".toList

def maybeTok : Txt := "maybe".toList

/-- Witness for C4 at concrete inputs. -/
theorem verdict_fail_closed_witness :
    verifyExtract noTagT = none ∧ (reviewEndpoint noTagT).1 = rejectS ∧
    verifyExtract unrecT = some maybeTok ∧ containsCI maybeTok acceptS = false ∧
    (roundReview unrecT).1 = rejectS :=
  ⟨by decide, (verdict_fail_closed.1 noTagT (by decide)).1, by decide, by decide,
    (verdict_fail_closed.2.1 unrecT maybeTok (by decide) (by decide)).2⟩

/-! ## Claim C5: fail-soft payload -/

/-- C5: the payload rule `m ? m[0] : content` used for the initial plan and
every revision of `/generate` and by the `/plan` endpoint: when the
`<SurgicalPlan>…</SurgicalPlan>` pattern has no match the payload is the raw
text itself; when it matches the payload is the first whole match; the
payload is non-empty whenever the raw text is non-empty; and the `/plan`
endpoint computes exactly this rule. -/
theorem payload_fail_soft :
    (∀ t : Txt, matchSurgicalPlan t = none → planPayload t = t) ∧
    (∀ t m : Txt, matchSurgicalPlan t = some m → planPayload t = m) ∧
    (∀ t : Txt, t ≠ [] → planPayload t ≠ []) ∧
    (∀ t : Txt, planEndpoint t = planPayload t) := by
  refine ⟨?_, ?_, ?_, ?_⟩
  · intro t h; simp [planPayload, h]
  · intro t m h; simp [planPayload, h]
  · intro t ht
    rcases hm : matchSurgicalPlan t with _ | m
    · simpa [planPayload, hm] using ht
    · have : m ≠ [] := tagMatchFull_nonempty (by decide) hm
      simpa [planPayload, hm] using this
  · intro t
    rcases hm : matchSurgicalPlan t with _ | m <;>
      simp [planEndpoint, planPayload, hm]

def planRawT : Txt := "the raw author text with no payload tag".toList

/-- Witness for C5 at a concrete input lacking the payload tag. -/
theorem payload_fail_soft_witness :
    matchSurgicalPlan planRawT = none ∧ planPayload planRawT = planRawT ∧
    planRawT ≠ [] ∧ planPayload planRawT ≠ [] :=
  ⟨by decide, payload_fail_soft.1 planRawT (by decide), by decide,
    payload_fail_soft.2.2.1 planRawT (by decide)⟩

/-! ## Claim C9: substring semantics of the accept classification -/

def dnaT : Txt :=
  "<SurgicalBoard_Verify>do not accept</SurgicalBoard_Verify><Feedback_Comment>unsafe plan</Feedback_Comment>".toList

def dnaTok : Txt := "do not accept".toList

def cnaT : Txt :=
  "<SurgicalBoard_Verify>cannot accept</SurgicalBoard_Verify><Feedback_Comment>bad</Feedback_Comment>".toList

/-- C9: the verdict classifier is `/accept/i.test(token)`: any extracted
token containing the substring `accept` case-insensitively classifies as
accept — including tokens such as `do not accept` or `cannot accept` — and
every token without that substring classifies as reject; the Manager
override decision uses the same test. -/
theorem verdict_substring_classification :
    (∀ t tok : Txt, verifyExtract t = some tok →
      (reviewEndpoint t).1 = (if containsCI tok acceptS then acceptS else rejectS)) ∧
    (∀ t tok c : Txt, verifyExtract t = some tok → feedbackExtract t = some c →
      jsTrim c ≠ [] →
      (roundReview t).1 =
        (if containsCI (jsTrim tok) acceptS then acceptS else rejectS)) ∧
    (∀ (o : Nat → Txt) (L : LoopOut), ¬(L.verdict = acceptS) →
      looksMinor L.comment = false →
      ((overridePhase o L).verdict = acceptS ↔
        containsCI (overTok (o L.st.idx)) acceptS = true)) ∧
    (roundReview dnaT).1 = acceptS ∧
    (reviewEndpoint cnaT).1 = acceptS := by
  refine ⟨?_, ?_, ?_, by decide, by decide⟩
  · intro t tok h
    simp [reviewEndpoint, h]
  · intro t tok c hv hc hne
    have hce : (jsTrim c).isEmpty = false := by
      rcases h' : jsTrim c with _ | ⟨x, xs⟩
      · exact absurd h' hne
      · rfl
    simp [roundReview, hv, hc, hce]
  · intro o L h1 h2
    unfold overridePhase
    rw [if_neg h1, if_neg (by simp [h2])]
    by_cases hov : containsCI (overTok (callO o .manager L.st).1) acceptS = true
    · have : (callO o .manager L.st).1 = o L.st.idx := rfl
      rw [this] at hov
      simp [callO, hov]
    · have : (callO o .manager L.st).1 = o L.st.idx := rfl
      rw [this] at hov
      simp only [Bool.not_eq_true] at hov
      simp [callO, hov]
      exact h1

/-- Witness for C9 at a concrete input whose token is `do not accept`. -/
theorem verdict_substring_classification_witness :
    verifyExtract dnaT = some dnaTok ∧
    (reviewEndpoint dnaT).1 = (if containsCI dnaTok acceptS then acceptS else rejectS) :=
  ⟨by decide, verdict_substring_classification.1 dnaT dnaTok (by decide)⟩

/-! ## Trace lemmas for the review loop -/

theorem reviewRounds_manager_notin (o : Nat → Txt) :
    ∀ (n : Nat) (p v c r : Txt) (st : RunSt),
      Role.manager ∉ st.trace →
      Role.manager ∉ (reviewRounds o n p v c r st).st.trace := by
  intro n
  induction n with
  | zero => intro p v c r st h; exact h
  | succ n ih =>
    intro p v c r st h
    simp only [reviewRounds]
    by_cases hv : (roundReview (callO o .reviewer st).1).1 = acceptS
    · rw [if_pos hv]
      simp only [callO]
      simp [h]
    · rw [if_neg hv]
      apply ih
      simp only [callO]
      simp [h]

theorem loopOut_manager_notin (o : Nat → Txt) :
    Role.manager ∉ (loopOut o).st.trace := by
  unfold loopOut
  apply reviewRounds_manager_notin
  simp [callO]

theorem reviewRounds_verdict_range (o : Nat → Txt) :
    ∀ (n : Nat) (p v c r : Txt) (st : RunSt),
      (v = acceptS ∨ v = rejectS) →
      ((reviewRounds o n p v c r st).verdict = acceptS ∨
       (reviewRounds o n p v c r st).verdict = rejectS) := by
  intro n
  induction n with
  | zero => intro p v c r st h; exact h
  | succ n ih =>
    intro p v c r st h
    simp only [reviewRounds]
    by_cases hv : (roundReview (callO o .reviewer st).1).1 = acceptS
    · rw [if_pos hv]
      left; exact hv
    · rw [if_neg hv]
      apply ih
      exact ite_accept_or_reject _
  -- the verdict of a round is the ite over the accept test

theorem loopOut_verdict_range (o : Nat → Txt) :
    (loopOut o).verdict = acceptS ∨ (loopOut o).verdict = rejectS := by
  unfold loopOut
  exact reviewRounds_verdict_range o 3 _ _ _ _ _ (Or.inr rfl)

/-! ## Claim C2: override fast path -/

/-- C2: when the review loop ends still rejected and the last rejection
comment is empty or matches the superficial-concern pattern, `/generate`
ends accepted with `source = 'manager_override'` and the synthesized
override note, and the Manager role is never invoked. -/
theorem override_fast_path (o : Nat → Txt)
    (h1 : ¬((loopOut o).verdict = acceptS))
    (h2 : looksMinor (loopOut o).comment = true) :
    (generate o).verdict = acceptS ∧ (generate o).source = mgrSrcS ∧
    (generate o).mnote = fastNoteS ∧ Role.manager ∉ (generate o).trace := by
  have hov : overridePhase o (loopOut o) =
      ⟨acceptS, mgrSrcS, fastNoteS, (loopOut o).st⟩ := by
    unfold overridePhase
    rw [if_neg h1, if_pos h2]
  simp only [generate]
  rw [hov]
  have hc : (OverrideOut.mk acceptS mgrSrcS fastNoteS (loopOut o).st).verdict
      = acceptS := rfl
  rw [if_pos hc]
  refine ⟨rfl, rfl, rfl, ?_⟩
  simp only [callO]
  intro hmem
  rcases List.mem_append.mp hmem with h | h
  · exact loopOut_manager_notin o h
  · simp at h

def rejMinT : Txt :=
  "<SurgicalBoard_Verify>reject</SurgicalBoard_Verify><Feedback_Comment>minor formatting issue with tag names</Feedback_Comment>".toList

def rejSubT : Txt :=
  "<SurgicalBoard_Verify>reject</SurgicalBoard_Verify><Feedback_Comment>missing margins</Feedback_Comment>".toList

def mgrAccT : Txt :=
  "<Manager_Override>accept</Manager_Override><Manager_Note>minor concern only</Manager_Note>".toList

def mgrRejT : Txt :=
  "<Manager_Override>reject</Manager_Override><Manager_Note>major omission</Manager_Note>".toList

def planT : Txt := "<SurgicalPlan><step>x</step></SurgicalPlan>".toList

/-- Oracle: reviewer always rejects with a superficial-concern comment. -/
def c2Oracle : Nat → Txt := fun k =>
  if k = 1 ∨ k = 3 ∨ k = 5 then rejMinT else planT

/-- Witness for C2: a run whose reviewer rejects all rounds for formatting
reasons ends accepted via the fast path without a Manager call. -/
theorem override_fast_path_witness :
    ¬((loopOut c2Oracle).verdict = acceptS) ∧
    looksMinor (loopOut c2Oracle).comment = true ∧
    ((generate c2Oracle).verdict = acceptS ∧ (generate c2Oracle).source = mgrSrcS ∧
     (generate c2Oracle).mnote = fastNoteS ∧
     Role.manager ∉ (generate c2Oracle).trace) :=
  ⟨by decide, by decide, override_fast_path c2Oracle (by decide) (by decide)⟩

/-! ## Claim C3: manager escalation -/

/-- C3: when the review loop ends still rejected and the comment does not
look minor, the Manager role is invoked exactly once; the run ends accepted
iff the extracted override decision classifies as accept; on rejection the
run ends with verdict `reject`, no markdown, `source` still `'review'`, and
the Manager note carried in the response; the override token defaults to
`reject` and the note to the empty string when the tags are absent. -/
theorem override_manager_escalation (o : Nat → Txt)
    (h1 : ¬((loopOut o).verdict = acceptS))
    (h2 : looksMinor (loopOut o).comment = false) :
    ((generate o).trace.count Role.manager = 1) ∧
    ((generate o).verdict = acceptS ↔
      containsCI (overTok (o (loopOut o).st.idx)) acceptS = true) ∧
    ((generate o).mnote = mgrNoteTok (o (loopOut o).st.idx)) ∧
    (containsCI (overTok (o (loopOut o).st.idx)) acceptS = false →
      (generate o).verdict = rejectS ∧ (generate o).markdown = none ∧
      (generate o).source = reviewSrcS) ∧
    (∀ t : Txt, mOverrideExtract t = none → overTok t = rejectS) ∧
    (∀ t : Txt, mNoteExtract t = none → mgrNoteTok t = []) := by
  have hcount0 : (loopOut o).st.trace.count Role.manager = 0 :=
    List.count_eq_zero.mpr (loopOut_manager_notin o)
  have hLrej : (loopOut o).verdict = rejectS :=
    (loopOut_verdict_range o).resolve_left h1
  by_cases hov : containsCI (overTok (o (loopOut o).st.idx)) acceptS = true
  · have hphase : overridePhase o (loopOut o) =
        ⟨acceptS, mgrSrcS, mgrNoteTok (o (loopOut o).st.idx),
          ⟨(loopOut o).st.idx + 1, (loopOut o).st.trace ++ [Role.manager]⟩⟩ := by
      unfold overridePhase
      rw [if_neg h1, if_neg (by simp [h2])]
      simp only [callO]
      rw [if_pos hov]
    refine ⟨?_, ?_, ?_, ?_, ?_, ?_⟩
    · simp only [generate]
      rw [hphase]
      simp only [callO, if_pos rfl]
      simp [List.count_append, hcount0]
    · simp only [generate]
      rw [hphase]
      simp only [if_pos rfl]
      simpa using hov
    · simp only [generate]
      rw [hphase]
      simp [if_pos rfl]
    · intro hneg; rw [hneg] at hov; exact absurd hov (by simp)
    · intro t ht; simp [overTok, ht]; decide
    · intro t ht; simp [mgrNoteTok, ht]; decide
  · simp only [Bool.not_eq_true] at hov
    have hphase : overridePhase o (loopOut o) =
        ⟨(loopOut o).verdict, reviewSrcS, mgrNoteTok (o (loopOut o).st.idx),
          ⟨(loopOut o).st.idx + 1, (loopOut o).st.trace ++ [Role.manager]⟩⟩ := by
      unfold overridePhase
      rw [if_neg h1, if_neg (by simp [h2])]
      simp only [callO]
      rw [if_neg (by simp [hov])]
    have hne : ¬((overridePhase o (loopOut o)).verdict = acceptS) := by
      rw [hphase]; exact h1
    refine ⟨?_, ?_, ?_, ?_, ?_, ?_⟩
    · simp only [generate]
      rw [if_neg hne, hphase]
      simp [List.count_append, hcount0]
    · simp only [generate]
      rw [if_neg hne, hphase]
      simp only [hov]
      constructor
      · intro hx; exact absurd hx h1
      · intro hx; exact absurd hx (by simp)
    · simp only [generate]
      rw [if_neg hne, hphase]
    · intro _
      simp only [generate]
      rw [if_neg hne, hphase]
      exact ⟨hLrej, rfl, rfl⟩
    · intro t ht; simp [overTok, ht]; decide
    · intro t ht; simp [mgrNoteTok, ht]; decide

/-- Oracle: reviewer always rejects substantively; the Manager accepts. -/
def c3Oracle : Nat → Txt := fun k =>
  if k = 1 ∨ k = 3 ∨ k = 5 then rejSubT else if k = 7 then mgrAccT else planT

/-- Witness for C3: a substantively rejected run escalates to exactly one
Manager call whose accept decision makes the run accept. -/
theorem override_manager_escalation_witness :
    ¬((loopOut c3Oracle).verdict = acceptS) ∧
    looksMinor (loopOut c3Oracle).comment = false ∧
    ((generate c3Oracle).trace.count Role.manager = 1 ∧
     ((generate c3Oracle).verdict = acceptS ↔
       containsCI (overTok (c3Oracle (loopOut c3Oracle).st.idx)) acceptS = true)) :=
  ⟨by decide, by decide,
    let h := override_manager_escalation c3Oracle (by decide) (by decide)
    ⟨h.1, h.2.1⟩⟩

/-! ## Claim C1: round bound and post-final-rejection behaviour (code bug) -/

/-- Oracle: reviewer always rejects substantively; the Manager rejects. -/
def c1Oracle : Nat → Txt := fun k =>
  if k = 1 ∨ k = 3 ∨ k = 5 then rejSubT else if k = 7 then mgrRejT else planT

/-- C1 (evidence of the code bug): with a reviewer that rejects every round,
the Reviewer role is invoked exactly 3 times and the run then enters the
override stage — but the code performs one more Author (revision) call
*after* the final rejection, before the override decision, so the trace is
author, (reviewer, author) three times, manager: four Author calls in
total, contradicting the claim (and the code's own comment
`Review + up to 2 revisions`). -/
theorem generate_revises_after_final_rejection :
    (generate c1Oracle).trace =
      [.author, .reviewer, .author, .reviewer, .author, .reviewer, .author,
        .manager] ∧
    (generate c1Oracle).trace.count Role.reviewer = 3 ∧
    (generate c1Oracle).trace.count Role.author = 4 ∧
    (generate c1Oracle).verdict = rejectS := by
  refine ⟨by decide, by decide, by decide, by decide⟩

/-! ## The retry wrapper `runLLMRetry`

`async function runLLMRetry(fn, { tries = 3, baseDelay }) { ... }` with
`baseDelay` defaulting to 700 in server.js v1.5.0 and 600 in the earlier
revision.  The wrapped operation is modelled by `res : Nat → Except E A`
giving the outcome of the `i`-th attempt, `Math.random()*300` by a jitter
function `jit`, and the observable behaviour (attempts made, sleeps awaited)
by a list of events.  The loop body sleeps in the `catch` of *every* failed
attempt — including the last one — and only then throws `lastErr`. -/

inductive RetryEvent where
  | attemptEv (i : Nat)
  | sleepEv (d : ℚ)
deriving DecidableEq

/-- `baseDelay * Math.pow(1.6, i) + Math.random()*300` with the jitter draw
for attempt `i` given by `jit i`. -/
def sleepFormula (baseDelay : ℚ) (jit : Nat → ℚ) (i : Nat) : ℚ :=
  baseDelay * (8 / 5 : ℚ) ^ i + jit i

/-- The retry loop from attempt `i`, with `rem` loop iterations left and
`lastErr` as currently recorded.  Returns the overall outcome (a thrown
`lastErr` is `Except.error`; it is `none` only when `tries = 0`) and the
event list. -/
def retryGo (E A : Type) (res : Nat → Except E A) (baseDelay : ℚ)
    (jit : Nat → ℚ) : Nat → Nat → Option E → Except (Option E) A × List RetryEvent
  | 0, _, lastErr => (.error lastErr, [])
  | rem + 1, i, _ =>
    match res i with
    | .ok a => (.ok a, [.attemptEv i])
    | .error e =>
      let rest := retryGo E A res baseDelay jit rem (i + 1) (some e)
      (rest.1, .attemptEv i :: .sleepEv (sleepFormula baseDelay jit i) :: rest.2)

/-- `runLLMRetry`: attempt the operation up to `tries` times, sleeping
`baseDelay * 1.6^i + jitter` after each failure, and throw the last error
after the loop. -/
def runLLMRetry (E A : Type) (res : Nat → Except E A) (tries : Nat)
    (baseDelay : ℚ) (jit : Nat → ℚ) : Except (Option E) A × List RetryEvent :=
  retryGo E A res baseDelay jit tries 0 none

/-- The events produced by `n` consecutive failing attempts from index `i`. -/
def failEvents (b : ℚ) (jit : Nat → ℚ) : Nat → Nat → List RetryEvent
  | 0, _ => []
  | n + 1, i =>
    .attemptEv i :: .sleepEv (sleepFormula b jit i) :: failEvents b jit n (i + 1)

def isAttemptEv : RetryEvent → Bool
  | .attemptEv _ => true
  | .sleepEv _ => false

def sleepVal : RetryEvent → Option ℚ
  | .sleepEv d => some d
  | .attemptEv _ => none

theorem retryGo_attempts_le (E A : Type) (res : Nat → Except E A) (b : ℚ)
    (jit : Nat → ℚ) :
    ∀ (rem i : Nat) (le : Option E),
      ((retryGo E A res b jit rem i le).2.countP isAttemptEv) ≤ rem := by
  intro rem
  induction rem with
  | zero => intro i le; simp [retryGo]
  | succ n ih =>
    intro i le
    cases hres : res i with
    | ok a => simp [retryGo, hres, List.countP_cons, isAttemptEv]
    | error e =>
      simp [retryGo, hres, List.countP_cons, isAttemptEv]
      exact ih (i + 1) (some e)

theorem retryGo_fail_run (E A : Type) (res : Nat → Except E A) (b : ℚ)
    (jit : Nat → ℚ) (ef : Nat → E) :
    ∀ (n m i : Nat) (le : Option E),
      (∀ k, k < n + 1 → res (i + k) = .error (ef (i + k))) →
      retryGo E A res b jit (n + 1 + m) i le =
        ((retryGo E A res b jit m (i + n + 1) (some (ef (i + n)))).1,
          failEvents b jit (n + 1) i ++
            (retryGo E A res b jit m (i + n + 1) (some (ef (i + n)))).2) := by
  intro n
  induction n with
  | zero =>
    intro m i le h
    have h0 : res i = .error (ef i) := by simpa using h 0 (by omega)
    have harr : 0 + 1 + m = m + 1 := by omega
    rw [harr]
    simp only [retryGo, h0]
    simp [failEvents]
  | succ n ih =>
    intro m i le h
    have h0 : res i = .error (ef i) := by simpa using h 0 (by omega)
    have hstep : n + 1 + 1 + m = (n + 1 + m) + 1 := by omega
    rw [hstep]
    simp only [retryGo, h0]
    have hrec := ih m (i + 1) (some (ef i)) (fun k hk => by
      have := h (k + 1) (by omega)
      have harith : i + (k + 1) = i + 1 + k := by omega
      rw [harith] at this
      exact this)
    have harith2 : i + 1 + n + 1 = i + (n + 1) + 1 := by omega
    have harith3 : i + 1 + n = i + (n + 1) := by omega
    rw [harith2, harith3] at hrec
    rw [hrec]
    simp [failEvents]

theorem failEvents_sleeps (b : ℚ) (jit : Nat → ℚ) :
    ∀ (n i : Nat),
      (failEvents b jit n i).filterMap sleepVal =
        (List.range' i n).map (sleepFormula b jit) := by
  intro n
  induction n with
  | zero => intro i; simp [failEvents]
  | succ n ih =>
    intro i
    simp only [failEvents, List.filterMap_cons, sleepVal]
    rw [List.range'_succ]
    simp [ih]

/-! ## Claim C6: the retry contract -/

/-- C6: `runLLMRetry` attempts the operation at most `tries` times; when the
first success happens at attempt `i`, it returns that result with no further
attempts, having slept `baseDelay * 1.6^k + jitter_k` between consecutive
failed attempts (`k < i`); when every attempt fails, the last error is
propagated; and with `baseDelay` in the 600..700 range and jitter uniform on
[0, 300), successive expected sleep intervals (jitter at its mean 150) are
non-decreasing. -/
theorem retry_contract (E A : Type) (res : Nat → Except E A) (tries : Nat)
    (b : ℚ) (jit : Nat → ℚ) (ef : Nat → E)
    (hb : 600 ≤ b ∧ b ≤ 700) (hj : ∀ k, 0 ≤ jit k ∧ jit k < 300) :
    ((runLLMRetry E A res tries b jit).2.countP isAttemptEv ≤ tries) ∧
    (∀ (i : Nat) (a : A), i < tries → (∀ k, k < i → res k = .error (ef k)) →
      res i = .ok a →
      runLLMRetry E A res tries b jit =
        (.ok a, failEvents b jit i 0 ++ [.attemptEv i]) ∧
      (runLLMRetry E A res tries b jit).2.filterMap sleepVal =
        (List.range' 0 i).map (sleepFormula b jit)) ∧
    (0 < tries → (∀ k, k < tries → res k = .error (ef k)) →
      (runLLMRetry E A res tries b jit).1 = .error (some (ef (tries - 1)))) ∧
    (∀ k, b * (8 / 5 : ℚ) ^ k ≤ sleepFormula b jit k ∧
      sleepFormula b jit k < b * (8 / 5 : ℚ) ^ k + 300) ∧
    (∀ k, sleepFormula b (fun _ => (150 : ℚ)) k ≤
      sleepFormula b (fun _ => (150 : ℚ)) (k + 1)) := by
  refine ⟨retryGo_attempts_le E A res b jit tries 0 none, ?_, ?_, ?_, ?_⟩
  · intro i a hi hfail hok
    have hmain : runLLMRetry E A res tries b jit =
        (.ok a, failEvents b jit i 0 ++ [.attemptEv i]) := by
      unfold runLLMRetry
      cases i with
      | zero =>
        rcases tries with _ | m
        · omega
        · simp only [retryGo, hok]
          simp [failEvents]
      | succ n =>
        have hm : tries = n + 1 + (tries - (n + 1)) := by omega
        rw [hm]
        rw [retryGo_fail_run E A res b jit ef n (tries - (n + 1)) 0 none
          (fun k hk => by simpa using hfail k (by omega))]
        have hm2 : tries - (n + 1) = (tries - (n + 1) - 1) + 1 := by omega
        rw [hm2]
        simp only [retryGo, Nat.zero_add]
        rw [hok]
    refine ⟨hmain, ?_⟩
    rw [hmain]
    simp only [List.filterMap_append, failEvents_sleeps]
    simp [sleepVal]
  · intro hpos hfail
    unfold runLLMRetry
    rcases tries with _ | n
    · omega
    · have := retryGo_fail_run E A res b jit ef n 0 0 none
        (fun k hk => by simpa using hfail k (by omega))
      rw [show n + 1 + 0 = n + 1 from by omega] at this
      rw [this]
      simp [retryGo]
  · intro k
    unfold sleepFormula
    have := hj k
    constructor
    · linarith [this.1]
    · linarith [this.2]
  · intro k
    unfold sleepFormula
    have h1 : (0 : ℚ) ≤ b := by linarith [hb.1]
    have h2 : (8 / 5 : ℚ) ^ k ≤ (8 / 5 : ℚ) ^ (k + 1) := by
      have hp : (0 : ℚ) < (8 / 5 : ℚ) ^ k := pow_pos (by norm_num) k
      calc (8 / 5 : ℚ) ^ k = (8 / 5 : ℚ) ^ k * 1 := (mul_one _).symm
        _ ≤ (8 / 5 : ℚ) ^ k * (8 / 5) := by
            apply mul_le_mul_of_nonneg_left (by norm_num) (le_of_lt hp)
        _ = (8 / 5 : ℚ) ^ (k + 1) := (pow_succ _ _).symm
    have := mul_le_mul_of_nonneg_left h2 h1
    linarith

def errT : Txt := "upstream failure".toList

def okT : Txt := "a reply".toList

def res6 : Nat → Except Txt Txt := fun k => if k = 0 then .error errT else .ok okT

def jit6 : Nat → ℚ := fun _ => 100

/-- Witness for C6: with one failure then a success, the retry wrapper
returns the success after exactly two attempts and one backoff sleep. -/
theorem retry_contract_witness :
    (1 < 3) ∧
    runLLMRetry Txt Txt res6 3 650 jit6 =
      (.ok okT, failEvents 650 jit6 1 0 ++ [.attemptEv 1]) :=
  ⟨by norm_num,
    ((retry_contract Txt Txt res6 3 650 jit6 (fun _ => errT)
        ⟨by norm_num, by norm_num⟩
        (fun _ => ⟨by norm_num [jit6], by norm_num [jit6]⟩)).2.1
      1 okT (by norm_num)
      (fun k hk => by
        have hk0 : k = 0 := by omega
        rw [hk0]; rfl)
      rfl).1⟩

/-! ## Claim C10: a backoff sleep follows the final failed attempt -/

/-- C10: when every attempt fails, the run performs `tries` backoff sleeps —
one after each failed attempt including the final one, the last sleep being
`baseDelay * 1.6^(tries-1) + jitter` — and only then propagates the last
error. -/
theorem retry_sleeps_after_final_failure (E A : Type) (res : Nat → Except E A)
    (tries : Nat) (b : ℚ) (jit : Nat → ℚ) (ef : Nat → E)
    (h0 : 0 < tries) (hfail : ∀ k, k < tries → res k = .error (ef k)) :
    runLLMRetry E A res tries b jit =
      (.error (some (ef (tries - 1))), failEvents b jit tries 0) ∧
    ((runLLMRetry E A res tries b jit).2.filterMap sleepVal =
      (List.range' 0 tries).map (sleepFormula b jit)) ∧
    ((runLLMRetry E A res tries b jit).2.filterMap sleepVal).length = tries ∧
    sleepFormula b jit (tries - 1) ∈
      (runLLMRetry E A res tries b jit).2.filterMap sleepVal := by
  have hmain : runLLMRetry E A res tries b jit =
      (.error (some (ef (tries - 1))), failEvents b jit tries 0) := by
    unfold runLLMRetry
    rcases tries with _ | n
    · omega
    · have := retryGo_fail_run E A res b jit ef n 0 0 none
        (fun k hk => by simpa using hfail k (by omega))
      rw [show n + 1 + 0 = n + 1 from by omega] at this
      rw [this]
      simp [retryGo]
  have hsleeps : (runLLMRetry E A res tries b jit).2.filterMap sleepVal =
      (List.range' 0 tries).map (sleepFormula b jit) := by
    rw [hmain]
    exact failEvents_sleeps b jit tries 0
  refine ⟨hmain, hsleeps, ?_, ?_⟩
  · rw [hsleeps]
    simp
  · rw [hsleeps]
    apply List.mem_map_of_mem
    have : tries - 1 ∈ List.range' 0 tries ↔ True := by
      simp [List.mem_range']
      omega
    exact this.mpr trivial

def res10 : Nat → Except Txt Txt := fun _ => .error errT

/-- Witness for C10: a totally failing operation with 3 tries sleeps 3 times
and then propagates the error. -/
theorem retry_sleeps_after_final_failure_witness :
    (0 < 3) ∧
    runLLMRetry Txt Txt res10 3 650 jit6 =
      (.error (some errT), failEvents 650 jit6 3 0) ∧
    ((runLLMRetry Txt Txt res10 3 650 jit6).2.filterMap sleepVal).length = 3 :=
  ⟨by norm_num,
    let h := retry_sleeps_after_final_failure Txt Txt res10 3 650 jit6
      (fun _ => errT) (by norm_num) (fun k _ => rfl)
    ⟨h.1, h.2.2.1⟩⟩

/-! ## JavaScript values and the response-shape extractors

Upstream responses are arbitrary JavaScript data; we model them as a JSON-like
value type (`undefined` and `null` are collapsed into `jnull`, which is how
this code observes them: both are falsy and fail every `typeof`/field test). -/

inductive JVal where
  | jnull
  | jbool (b : Bool)
  | jnum (n : Int)
  | jstr (s : Txt)
  | jarr (xs : List JVal)
  | jobj (fs : List (Txt × JVal))

/-- Property access `v.k` (with optional chaining collapsing to `jnull`). -/
def jget (v : JVal) (k : Txt) : JVal :=
  match v with
  | .jobj fs =>
    match fs.find? (fun p => p.1 == k) with
    | some p => p.2
    | none => .jnull
  | _ => .jnull

/-- JavaScript truthiness. -/
def truthy : JVal → Bool
  | .jnull => false
  | .jbool b => b
  | .jnum n => !(n == 0)
  | .jstr s => !s.isEmpty
  | .jarr _ => true
  | .jobj _ => true

/-- Indexing `v?.[0]`: array head, first character of a string (as a one-char
string), property `"0"` of an object, `undefined` otherwise. -/
def idx0 : JVal → JVal
  | .jarr (x :: _) => x
  | .jarr [] => .jnull
  | .jstr (c :: _) => .jstr [c]
  | .jstr [] => .jnull
  | .jobj fs => jget (.jobj fs) ("0".toList)
  | _ => .jnull

mutual
/-- JavaScript `String(v)` coercion (for the values this code can feed it). -/
def jvalStr : JVal → Txt
  | .jnull => "null".toList
  | .jbool true => "true".toList
  | .jbool false => "false".toList
  | .jnum n => (toString n).toList
  | .jstr s => s
  | .jarr xs => jvalStrList xs
  | .jobj _ => "[object Object]".toList

def jvalStrList : List JVal → Txt
  | [] => []
  | [x] => jvalStr x
  | x :: y :: xs => jvalStr x ++ ',' :: jvalStrList (y :: xs)
end

/-- `String(v || '')`: falsy values coerce to the empty string. -/
def jvalStrOrEmpty (v : JVal) : Txt := if truthy v then jvalStr v else []

def output_textK : Txt := "output_text".toList

def outputK : Txt := "output".toList

def outputsK : Txt := "outputs".toList

def contentK : Txt := "content".toList

def textK : Txt := "text".toList

def valueK : Txt := "value".toList

def annsK : Txt := "annotations".toList

def choicesK : Txt := "choices".toList

def messageK : Txt := "message".toList

/-- One content part `c` of an output item, per the branch chain of
`extractFromResponses`: a plain-string `c.text`, a string `c.text.value`,
an annotated `c.text` (coerced `String(c.text.value || '')`), or a
plain-string `c.content`; `none` when no branch pushes. -/
def partText (c : JVal) : Option Txt :=
  match jget c textK with
  | .jstr s => some s
  | tv =>
    match jget tv valueK with
    | .jstr s => some s
    | _ =>
      match jget tv annsK with
      | .jarr _ => some (jvalStrOrEmpty (jget tv valueK))
      | _ =>
        match jget c contentK with
        | .jstr s => some s
        | _ => none

/-- Fold `partText` over the parts of one item's `content` list. -/
def pushParts (acc : List Txt) : List JVal → List Txt
  | [] => acc
  | c :: cs =>
    match partText c with
    | some t => pushParts (acc ++ [t]) cs
    | none => pushParts acc cs

/-- `item?.content || []` as the iteration source of the inner loop. -/
def contOf (item : JVal) : JVal :=
  let c := jget item contentK
  if truthy c then c else .jarr []

/-- The outer item loop of `extractFromResponses`.  A truthy non-iterable
`cont` makes `for (const c of cont)` throw; the surrounding `try` then keeps
the texts accumulated so far (`true` marks such an abort).  A string `cont`
iterates characters, none of which pushes anything. -/
def iterItems : List JVal → List Txt → List Txt × Bool
  | [], acc => (acc, false)
  | item :: rest, acc =>
    match contOf item with
    | .jarr cs => iterItems rest (pushParts acc cs)
    | .jstr _ => iterItems rest acc
    | _ => (acc, true)

/-- Join with `'\n'`, as `texts.join('\n')`. -/
def joinNL : List Txt → Txt
  | [] => []
  | [t] => t
  | t :: u :: ts => t ++ '\n' :: joinNL (u :: ts)

/-- The item-loop part of `extractFromResponses`:
`out = resp.output || resp.outputs || []`, loop (with throw absorbed by the
`try`), then `texts.join('\n').trim()`. -/
def extractRest (resp : JVal) : Txt :=
  let out0 := jget resp outputK
  let out1 := jget resp outputsK
  let outv := if truthy out0 then out0 else if truthy out1 then out1 else .jarr []
  let texts :=
    match outv with
    | .jarr items => (iterItems items []).1
    | .jstr _ => []
    | _ => []
  jsTrim (joinNL texts)

/-- `extractFromResponses(resp)` (server.js v1.5.0 lines 259-284): the
robust Responses-API shape extractor.  Returns `resp.output_text` when that
is a string with non-blank trim, otherwise the joined texts of the nested
output items' content parts, and the empty string for anything else;
`try/catch` means it never throws. -/
def extractFromResponses (resp : JVal) : Txt :=
  if !truthy resp then []
  else
    match jget resp output_textK with
    | .jstr s => if !(jsTrim s).isEmpty then s else extractRest resp
    | _ => extractRest resp

/-- `extractText(resp)` from the earlier revision (part_000 lines 109-114):
`resp?.output_text || resp?.content?.[0]?.text || resp?.choices?.[0]?.message?.content || ''`.
Note that it returns whichever field value is truthy first — not necessarily
a string. -/
def extractText (resp : JVal) : JVal :=
  let a := jget resp output_textK
  if truthy a then a
  else
    let b := jget (idx0 (jget resp contentK)) textK
    if truthy b then b
    else
      let c := jget (jget (idx0 (jget resp choicesK)) messageK) contentK
      if truthy c then c else .jstr []

/-! ## Claim C7: extraction tolerance (corrected)

No single extractor handles all the shapes the claim lists:
`extractFromResponses` (the robust one) does not look at
`choices[0].message.content` at all — that shape is handled by the earlier
revision's `extractText` and by the chat-fallback line of `runLLM` — and
`extractText` passes a truthy non-string field value through unchanged. -/

def hiS : Txt := "hi".toList

/-- A response carrying text only in the first-choice message-content
field. -/
def chObj : JVal :=
  .jobj [(choicesK, .jarr [.jobj [(messageK, .jobj [(contentK, .jstr hiS)])]])]

/-- A response whose `output_text` is the number 42. -/
def numObj : JVal := .jobj [(output_textK, .jnum 42)]

/-- C7 counterexample: `extractFromResponses` returns the empty string on a
response whose only text sits in `choices[0].message.content` (so the shape
is *not* handled there), and `extractText` returns the number 42 — not a
plain string — when `output_text` is 42. -/
theorem extractor_tolerance_cex :
    extractFromResponses chObj = [] ∧ hiS ≠ [] ∧
    jget (jget (idx0 (jget chObj choicesK)) messageK) contentK = .jstr hiS ∧
    extractText numObj = .jnum 42 :=
  ⟨rfl, by decide, rfl, rfl⟩

/-- A response with one output item whose content parts carry a
plain-string text and a value-wrapped text. -/
def mkRespObj (t1 t2 : Txt) : JVal :=
  .jobj [(outputK, .jarr [.jobj [(contentK, .jarr
    [.jobj [(textK, .jstr t1)],
     .jobj [(textK, .jobj [(valueK, .jstr t2)])]])]])]

/-- C7 amended: `extractFromResponses` never throws and always returns a
plain string: `output_text` verbatim when that is a string with non-blank
trim; the newline-joined texts of the output items' content parts (plain
string text or value-wrapped text) otherwise; the empty string on falsy
input and on unrecognised shapes — including the first-choice
message-content shape, which is handled instead by the companion
`extractText`, whose fallback chain returns the empty string for
unrecognised shapes but passes a truthy field value through as is. -/
theorem extractor_tolerance :
    (∀ (resp : JVal) (s : Txt), truthy resp = true →
      jget resp output_textK = .jstr s → (jsTrim s).isEmpty = false →
      extractFromResponses resp = s) ∧
    (∀ t1 t2 : Txt,
      extractFromResponses (mkRespObj t1 t2) = jsTrim (t1 ++ '\n' :: t2)) ∧
    (∀ resp : JVal, truthy resp = false → extractFromResponses resp = []) ∧
    (extractFromResponses chObj = [] ∧ extractText chObj = .jstr hiS) ∧
    (extractText (.jobj []) = .jstr [] ∧ extractText .jnull = .jstr []) := by
  refine ⟨?_, ?_, ?_, ⟨rfl, rfl⟩, ⟨rfl, rfl⟩⟩
  · intro resp s ht ho he
    unfold extractFromResponses
    rw [ho]
    simp [ht, he]
  · intro t1 t2
    rfl
  · intro resp ht
    unfold extractFromResponses
    simp [ht]

def okRespT : Txt := "an output text".toList

def respGood : JVal := .jobj [(output_textK, .jstr okRespT)]

/-- Witness for the amended C7 at concrete inputs. -/
theorem extractor_tolerance_witness :
    truthy respGood = true ∧ jget respGood output_textK = .jstr okRespT ∧
    (jsTrim okRespT).isEmpty = false ∧
    extractFromResponses respGood = okRespT :=
  ⟨rfl, rfl, by decide,
    extractor_tolerance.1 respGood okRespT rfl rfl (by decide)⟩

/-! ## The generation client `runLLM` (v1.5.0) -/

def gpt5S : Txt := "gpt-5".toList

def o3S : Txt := "o3".toList

def gpt4oS : Txt := "gpt-4o".toList

/-- `/^gpt-5|^o3/i.test(m || '')`. -/
def isResponsesModel (m : Txt) : Bool := isPrefixCI gpt5S m || isPrefixCI o3S m

/-- `mdl.replace(/^gpt-5/i, 'gpt-4o')`: substitute a leading `gpt-5`
(case-insensitive) with `gpt-4o`. -/
def chatModelSub (m : Txt) : Txt :=
  if isPrefixCI gpt5S m then gpt4oS ++ m.drop gpt5S.length else m

/-- `(model || MODEL_DEFAULT).trim()`. -/
def mdlOf (modelOpt : Option Txt) (defModel : Txt) : Txt :=
  jsTrim (match modelOpt with
    | some m => if m.isEmpty then defModel else m
    | none => defModel)

/-- The payload of a Responses-API call; `reasoning` is attached exactly
when a reasoning effort was supplied. -/
structure RespPayload where
  model : Txt
  reasoning : Option Txt
  sys : Txt
  usr : Txt
deriving DecidableEq

/-- An upstream API call made by `runLLM`. -/
inductive ApiCall where
  | responses (p : RespPayload)
  | chat (model : Txt)
deriving DecidableEq

/-- `chat?.choices?.[0]?.message?.content || ''`: the single-shape chat
extraction. -/
def chatExtract (chat : JVal) : JVal :=
  let v := jget (jget (idx0 (jget chat choicesK)) messageK) contentK
  if truthy v then v else .jstr []

/-- `runLLM` (server.js v1.5.0 lines 286-320): try the Responses API for
reasoning-capable models and return its extracted text when non-blank;
otherwise — or when the call threw, or for conventional models — fall back
to Chat Completions with the `gpt-5` → `gpt-4o` substitution.  The outcome
of the Responses call is `respResult` (`.error ()` models a throw) and the
chat response is `chatResp`; the calls actually issued are returned
alongside the result. -/
def runLLM (modelOpt : Option Txt) (defModel : Txt) (effort : Option Txt)
    (sys usr : Txt) (respResult : Except Unit JVal) (chatResp : JVal) :
    JVal × List ApiCall :=
  let mdl := mdlOf modelOpt defModel
  if isResponsesModel mdl then
    match respResult with
    | .ok resp =>
      let text := extractFromResponses resp
      if !text.isEmpty && !(jsTrim text).isEmpty then
        (.jstr text, [.responses ⟨mdl, effort, sys, usr⟩])
      else
        (chatExtract chatResp,
          [.responses ⟨mdl, effort, sys, usr⟩, .chat (chatModelSub mdl)])
    | .error _ =>
      (chatExtract chatResp,
        [.responses ⟨mdl, effort, sys, usr⟩, .chat (chatModelSub mdl)])
  else
    (chatExtract chatResp, [.chat (chatModelSub mdl)])

theorem extractRest_trim (resp : JVal) :
    jsTrim (extractRest resp) = extractRest resp := by
  simp only [extractRest]
  exact jsTrim_idem _

/-- The robust extractor only produces blank-trim output when its output is
empty outright (the `output_text` branch is guarded by a non-blank-trim
test and the join branch is itself trimmed). -/
theorem extractFromResponses_trim (resp : JVal)
    (h : extractFromResponses resp ≠ []) :
    jsTrim (extractFromResponses resp) ≠ [] := by
  have hff : ¬(false = true) := by simp
  by_cases ht : truthy resp
  · unfold extractFromResponses at h ⊢
    rcases ho : jget resp output_textK with _ | b | n | s | xs | fs
    · rw [ho] at h
      dsimp only at h ⊢
      simp only [ht, Bool.not_true] at h ⊢
      rw [if_neg hff] at h ⊢
      rw [extractRest_trim]
      exact h
    · rw [ho] at h
      dsimp only at h ⊢
      simp only [ht, Bool.not_true] at h ⊢
      rw [if_neg hff] at h ⊢
      rw [extractRest_trim]
      exact h
    · rw [ho] at h
      dsimp only at h ⊢
      simp only [ht, Bool.not_true] at h ⊢
      rw [if_neg hff] at h ⊢
      rw [extractRest_trim]
      exact h
    · rw [ho] at h
      dsimp only at h ⊢
      simp only [ht, Bool.not_true] at h ⊢
      rw [if_neg hff] at h ⊢
      by_cases he : (jsTrim s).isEmpty
      · rw [he] at h ⊢
        simp only [Bool.not_true] at h ⊢
        rw [if_neg hff] at h ⊢
        rw [extractRest_trim]
        exact h
      · simp only [Bool.not_eq_true] at he
        rw [he] at h ⊢
        simp only [Bool.not_false] at h ⊢
        rw [if_pos trivial] at h ⊢
        intro hx
        rw [hx] at he
        simp at he
    · rw [ho] at h
      dsimp only at h ⊢
      simp only [ht, Bool.not_true] at h ⊢
      rw [if_neg hff] at h ⊢
      rw [extractRest_trim]
      exact h
    · rw [ho] at h
      dsimp only at h ⊢
      simp only [ht, Bool.not_true] at h ⊢
      rw [if_neg hff] at h ⊢
      rw [extractRest_trim]
      exact h
  · exfalso
    apply h
    unfold extractFromResponses
    simp only [Bool.not_eq_true] at ht
    simp [ht]

/-! ## Claim C8: `runLLM` fallback behaviour -/

/-- C8: for a reasoning-capable model identifier, `runLLM` first issues a
Responses-API call whose payload attaches the effort parameter exactly when
supplied; it returns that call's extracted text when non-empty and otherwise
— including when the call threw — falls back to one Chat Completions call
under the `gpt-5` → `gpt-4o` prefix substitution, returning the single-shape
chat extraction; the empty string is a possible non-error result. -/
theorem runLLM_responses_fallback (modelOpt : Option Txt) (defModel : Txt)
    (effort : Option Txt) (sys usr : Txt) (respResult : Except Unit JVal)
    (chatResp : JVal)
    (hm : isResponsesModel (mdlOf modelOpt defModel) = true) :
    ((runLLM modelOpt defModel effort sys usr respResult chatResp).2.head? =
      some (.responses ⟨mdlOf modelOpt defModel, effort, sys, usr⟩)) ∧
    (∀ resp : JVal, respResult = .ok resp → extractFromResponses resp ≠ [] →
      runLLM modelOpt defModel effort sys usr respResult chatResp =
        (.jstr (extractFromResponses resp),
          [.responses ⟨mdlOf modelOpt defModel, effort, sys, usr⟩])) ∧
    (∀ resp : JVal, respResult = .ok resp → extractFromResponses resp = [] →
      runLLM modelOpt defModel effort sys usr respResult chatResp =
        (chatExtract chatResp,
          [.responses ⟨mdlOf modelOpt defModel, effort, sys, usr⟩,
            .chat (chatModelSub (mdlOf modelOpt defModel))])) ∧
    (respResult = .error () →
      runLLM modelOpt defModel effort sys usr respResult chatResp =
        (chatExtract chatResp,
          [.responses ⟨mdlOf modelOpt defModel, effort, sys, usr⟩,
            .chat (chatModelSub (mdlOf modelOpt defModel))])) ∧
    (isPrefixCI gpt5S (mdlOf modelOpt defModel) = true →
      chatModelSub (mdlOf modelOpt defModel) =
        gpt4oS ++ (mdlOf modelOpt defModel).drop gpt5S.length) ∧
    (chatResp = .jnull → respResult = .error () →
      (runLLM modelOpt defModel effort sys usr respResult chatResp).1 =
        .jstr []) := by
  refine ⟨?_, ?_, ?_, ?_, ?_, ?_⟩
  · simp only [runLLM, hm, if_pos rfl]
    rcases respResult with e | resp
    · rfl
    · by_cases hc : (!(extractFromResponses resp).isEmpty
          && !(jsTrim (extractFromResponses resp)).isEmpty) = true
      · simp [hc]
      · simp only [Bool.not_eq_true] at hc
        simp [hc]
  · intro resp hr hne
    subst hr
    have h1 : (extractFromResponses resp).isEmpty = false := by
      rcases hx : extractFromResponses resp with _ | ⟨c, cs⟩
      · exact absurd hx hne
      · rfl
    have h2 : (jsTrim (extractFromResponses resp)).isEmpty = false := by
      have := extractFromResponses_trim resp hne
      rcases hx : jsTrim (extractFromResponses resp) with _ | ⟨c, cs⟩
      · exact absurd hx this
      · rfl
    simp only [runLLM, hm, if_pos rfl]
    simp [h1, h2]
  · intro resp hr hempty
    subst hr
    simp only [runLLM, hm, if_pos rfl]
    simp [hempty]
  · intro hr
    subst hr
    simp [runLLM, hm]
  · intro hp
    simp [chatModelSub, hp]
  · intro hchat hr
    subst hchat; subst hr
    simp only [runLLM, hm, if_pos rfl]
    rfl

def gpt5MdlT : Txt := "GPT-5-mini".toList

/-- Witness for C8: a `GPT-5-mini` request whose Responses call yields a
non-empty extraction returns that text with no chat call. -/
theorem runLLM_responses_fallback_witness :
    isResponsesModel (mdlOf (some gpt5MdlT) gpt5S) = true ∧
    extractFromResponses respGood ≠ [] ∧
    runLLM (some gpt5MdlT) gpt5S none [] [] (.ok respGood) .jnull =
      (.jstr (extractFromResponses respGood),
        [.responses ⟨mdlOf (some gpt5MdlT) gpt5S, none, [], []⟩]) :=
  ⟨by decide, by decide,
    (runLLM_responses_fallback (some gpt5MdlT) gpt5S none [] []
        (.ok respGood) .jnull (by decide)).2.1 respGood rfl (by decide)⟩

end PRS
